import Mathlib

/-!
Verification of the envguard runtime-configuration library.

The TypeScript sources are shallowly embedded in Lean 4.  JavaScript strings
are modelled as `List Char`, byte buffers as `List Nat` (each entry < 256),
objects built by sequential assignment as association lists read by a
last-assignment lookup, and thrown exceptions as `Except` errors.  External
runtime primitives (the Node `crypto` AES-256-GCM cipher, the ECMAScript
`Number` coercion, `RegExp` matching) are modelled by the fragments the
library exercises; each such modelling choice is recorded in the doc comment
of the corresponding definition.
-/

instance exceptDecEq {ε α : Type} [DecidableEq ε] [DecidableEq α] :
    DecidableEq (Except ε α) := fun x y =>
  match x, y with
  | Except.ok a, Except.ok b =>
    if h : a = b then isTrue (by rw [h])
    else isFalse (fun hh => h (by injection hh))
  | Except.error a, Except.error b =>
    if h : a = b then isTrue (by rw [h])
    else isFalse (fun hh => h (by injection hh))
  | Except.ok _, Except.error _ => isFalse (fun hh => Except.noConfusion hh)
  | Except.error _, Except.ok _ => isFalse (fun hh => Except.noConfusion hh)

/-- Model of JavaScript `String.prototype.split` with a single-character
separator: every occurrence of the separator starts a new group, and the
empty string splits into one empty group. -/
def splitOnChar (sep : Char) : List Char → List (List Char)
  | [] => [[]]
  | c :: cs =>
    let r := splitOnChar sep cs
    if c = sep then [] :: r else (c :: r.headI) :: r.tail

/-- Inverse of `splitOnChar`: joins groups with the separator between them. -/
def joinChar (sep : Char) : List (List Char) → List Char
  | [] => []
  | [g] => g
  | g :: g2 :: gs => g ++ sep :: joinChar sep (g2 :: gs)

theorem splitOnChar_nil (sep : Char) : splitOnChar sep [] = [[]] := rfl

theorem splitOnChar_cons (sep c : Char) (cs : List Char) :
    splitOnChar sep (c :: cs) =
      if c = sep then [] :: splitOnChar sep cs
      else (c :: (splitOnChar sep cs).headI) :: (splitOnChar sep cs).tail := rfl

theorem splitOnChar_ne_nil (sep : Char) (l : List Char) : splitOnChar sep l ≠ [] := by
  cases l with
  | nil => simp [splitOnChar]
  | cons c cs =>
    rw [splitOnChar_cons]
    by_cases hc : c = sep <;> simp [hc]

theorem joinChar_cons (sep : Char) (g : List Char) (gs : List (List Char)) (h : gs ≠ []) :
    joinChar sep (g :: gs) = g ++ sep :: joinChar sep gs := by
  cases gs with
  | nil => exact absurd rfl h
  | cons g' gs' => rfl

theorem joinChar_splitOnChar (sep : Char) (l : List Char) :
    joinChar sep (splitOnChar sep l) = l := by
  induction l with
  | nil => rfl
  | cons c cs ih =>
    rw [splitOnChar_cons]
    by_cases hc : c = sep
    · rw [if_pos hc, joinChar_cons sep [] _ (splitOnChar_ne_nil sep cs), ih]
      simp [hc]
    · rw [if_neg hc]
      cases h : splitOnChar sep cs with
      | nil => exact absurd h (splitOnChar_ne_nil sep cs)
      | cons g gs =>
        rw [h] at ih
        cases gs with
        | nil =>
          simp only [List.headI, List.tail]
          simpa only [joinChar] using congrArg (fun t => c :: t) ih
        | cons g2 gs2 =>
          simp only [List.headI, List.tail]
          rw [joinChar_cons sep (c :: g) (g2 :: gs2) (by simp)]
          rw [joinChar_cons sep g (g2 :: gs2) (by simp)] at ih
          simp only [List.cons_append]
          rw [ih]

theorem not_mem_of_mem_splitOnChar (sep : Char) (l : List Char) :
    ∀ g ∈ splitOnChar sep l, sep ∉ g := by
  induction l with
  | nil =>
    intro g hg
    simp only [splitOnChar_nil, List.mem_singleton] at hg
    simp [hg]
  | cons c cs ih =>
    intro g hg
    rw [splitOnChar_cons] at hg
    cases h : splitOnChar sep cs with
    | nil => exact absurd h (splitOnChar_ne_nil sep cs)
    | cons g0 gs =>
      rw [h] at hg ih
      by_cases hc : c = sep
      · rw [if_pos hc] at hg
        rcases List.mem_cons.mp hg with hg | hg
        · simp [hg]
        · exact ih g hg
      · rw [if_neg hc] at hg
        simp only [List.headI, List.tail] at hg
        rcases List.mem_cons.mp hg with hg | hg
        · subst hg
          intro hmem
          rcases List.mem_cons.mp hmem with hmem | hmem
          · exact hc hmem.symm
          · exact ih g0 (by simp) hmem
        · exact ih g (by simp [hg])

theorem splitOnChar_of_not_mem (sep : Char) (l : List Char) (h : sep ∉ l) :
    splitOnChar sep l = [l] := by
  induction l with
  | nil => rfl
  | cons c cs ih =>
    have hc : c ≠ sep := fun hc => h (by simp [hc])
    have hcs : sep ∉ cs := fun hm => h (by simp [hm])
    rw [splitOnChar_cons, if_neg hc, ih hcs]
    simp

theorem splitOnChar_append_sep_right (sep : Char) (x y : List Char) (hy : sep ∉ y) :
    splitOnChar sep (x ++ sep :: y) = splitOnChar sep x ++ [y] := by
  induction x with
  | nil =>
    rw [List.nil_append, splitOnChar_cons, if_pos rfl, splitOnChar_of_not_mem sep y hy]
    simp [splitOnChar_nil]
  | cons c cs ih =>
    rw [List.cons_append, splitOnChar_cons, splitOnChar_cons, ih]
    cases h : splitOnChar sep cs with
    | nil => exact absurd h (splitOnChar_ne_nil sep cs)
    | cons g gs =>
      by_cases hc : c = sep <;> simp [hc]

theorem splitOnChar_append_sep_left (sep : Char) (x y : List Char) (hx : sep ∉ x) :
    splitOnChar sep (x ++ sep :: y) = x :: splitOnChar sep y := by
  induction x with
  | nil =>
    rw [List.nil_append, splitOnChar_cons, if_pos rfl]
  | cons c cs ih =>
    have hc : c ≠ sep := fun h => hx (by simp [h])
    have hcs : sep ∉ cs := fun h => hx (by simp [h])
    rw [List.cons_append, splitOnChar_cons, if_neg hc, ih hcs]
    simp

theorem splitOnChar_joinChar (sep : Char) (gs : List (List Char)) (hne : gs ≠ [])
    (hsep : ∀ g ∈ gs, sep ∉ g) : splitOnChar sep (joinChar sep gs) = gs := by
  induction gs with
  | nil => exact absurd rfl hne
  | cons g gs' ih =>
    cases gs' with
    | nil =>
      exact splitOnChar_of_not_mem sep g (hsep g (by simp))
    | cons g2 gs2 =>
      rw [joinChar_cons sep g (g2 :: gs2) (by simp)]
      rw [splitOnChar_append_sep_left sep g _ (hsep g (by simp))]
      rw [ih (by simp) (fun x hx => hsep x (by simp [hx]))]

theorem joinChar_append_singleton (sep : Char) (gs : List (List Char)) (y : List Char)
    (hne : gs ≠ []) : joinChar sep (gs ++ [y]) = joinChar sep gs ++ sep :: y := by
  induction gs with
  | nil => exact absurd rfl hne
  | cons g gs' ih =>
    cases gs' with
    | nil => rfl
    | cons g2 gs2 =>
      rw [List.cons_append, joinChar_cons sep g ((g2 :: gs2) ++ [y]) (by simp),
        joinChar_cons sep g (g2 :: gs2) (by simp), ih (by simp)]
      simp

/-- Model of JavaScript whitespace as recognised by `String.prototype.trim`
(the ASCII whitespace characters the library's inputs can contain). -/
def isJsWs (c : Char) : Bool :=
  (c == ' ') || (c == '\t') || (c == '\n') || (c == '\r') || (c == '\x0B') || (c == '\x0C')

/-- Model of JavaScript `String.prototype.trim`: removes leading and trailing
whitespace. -/
def jsTrim (l : List Char) : List Char :=
  ((l.dropWhile isJsWs).reverse.dropWhile isJsWs).reverse

/-! ## Hex encoding (Node `Buffer` hex codec) -/

/-- Hex digit for a nibble value: `0`-`9` then lowercase `a`-`f`, as produced
by Node `Buffer.prototype.toString('hex')`. -/
def hexDigit (n : Nat) : Char :=
  if n < 10 then Char.ofNat (48 + n) else if n < 16 then Char.ofNat (87 + n) else '0'

/-- The sixteen lowercase hex digit characters. -/
def hexChars : List Char := (List.range 16).map hexDigit

/-- Model of Node `buffer.toString('hex')`: two lowercase hex digits per byte. -/
def hexEncode : List Nat → List Char
  | [] => []
  | b :: bs => hexDigit (b / 16) :: hexDigit (b % 16) :: hexEncode bs

/-- Value of a hex digit character (both cases accepted, as by `Buffer.from(_, 'hex')`). -/
def hexVal? (c : Char) : Option Nat :=
  if c = '0' then some 0 else if c = '1' then some 1 else if c = '2' then some 2
  else if c = '3' then some 3 else if c = '4' then some 4 else if c = '5' then some 5
  else if c = '6' then some 6 else if c = '7' then some 7 else if c = '8' then some 8
  else if c = '9' then some 9 else if c = 'a' then some 10 else if c = 'b' then some 11
  else if c = 'c' then some 12 else if c = 'd' then some 13 else if c = 'e' then some 14
  else if c = 'f' then some 15 else if c = 'A' then some 10 else if c = 'B' then some 11
  else if c = 'C' then some 12 else if c = 'D' then some 13 else if c = 'E' then some 14
  else if c = 'F' then some 15 else none

/-- Model of Node `Buffer.from(s, 'hex')`: decodes pairs of hex digits and
truncates at the first malformed pair (Node's lenient behaviour). -/
def hexDecode : List Char → List Nat
  | c1 :: c2 :: rest =>
    match hexVal? c1, hexVal? c2 with
    | some hi, some lo => (16 * hi + lo) :: hexDecode rest
    | _, _ => []
  | _ => []

theorem hexVal?_hexDigit : ∀ n < 16, hexVal? (hexDigit n) = some n := by decide

theorem hexDigit_of_ge (n : Nat) (h : 16 ≤ n) : hexDigit n = '0' := by
  unfold hexDigit
  rw [if_neg (by omega), if_neg (by omega)]

theorem hexDigit_ne_colon (n : Nat) : hexDigit n ≠ ':' := by
  by_cases h : n < 16
  · revert n
    decide
  · rw [hexDigit_of_ge n (by omega)]
    decide

theorem hexDigit_mem_hexChars (n : Nat) : hexDigit n ∈ hexChars := by
  by_cases h : n < 16
  · exact List.mem_map.mpr ⟨n, List.mem_range.mpr h, rfl⟩
  · rw [hexDigit_of_ge n (by omega)]
    decide

theorem colon_not_mem_hexEncode (bs : List Nat) : ':' ∉ hexEncode bs := by
  induction bs with
  | nil => simp [hexEncode]
  | cons b bs ih =>
    simp only [hexEncode, List.mem_cons]
    push_neg
    refine ⟨?_, ?_, ih⟩
    · exact fun h => (hexDigit_ne_colon (b / 16)) h.symm
    · exact fun h => (hexDigit_ne_colon (b % 16)) h.symm

theorem mem_hexChars_of_mem_hexEncode (bs : List Nat) :
    ∀ c ∈ hexEncode bs, c ∈ hexChars := by
  induction bs with
  | nil => simp [hexEncode]
  | cons b bs ih =>
    intro c hc
    simp only [hexEncode, List.mem_cons] at hc
    rcases hc with h | h | h
    · exact h ▸ hexDigit_mem_hexChars _
    · exact h ▸ hexDigit_mem_hexChars _
    · exact ih c h

theorem hexDecode_hexEncode (bs : List Nat) (hb : ∀ b ∈ bs, b < 256) :
    hexDecode (hexEncode bs) = bs := by
  induction bs with
  | nil => rfl
  | cons b bs ih =>
    have hb0 : b < 256 := hb b (by simp)
    have hhi : b / 16 < 16 := by omega
    have hlo : b % 16 < 16 := Nat.mod_lt _ (by omega)
    simp only [hexEncode, hexDecode, hexVal?_hexDigit _ hhi, hexVal?_hexDigit _ hlo]
    rw [ih (fun x hx => hb x (by simp [hx]))]
    congr 1
    omega

theorem hexEncode_length (bs : List Nat) : (hexEncode bs).length = 2 * bs.length := by
  induction bs with
  | nil => rfl
  | cons b bs ih =>
    simp only [hexEncode, List.length_cons, ih]
    omega

theorem hexEncode_inj (bs1 bs2 : List Nat) (h1 : ∀ b ∈ bs1, b < 256)
    (h2 : ∀ b ∈ bs2, b < 256) (h : hexEncode bs1 = hexEncode bs2) : bs1 = bs2 := by
  have := congrArg hexDecode h
  rwa [hexDecode_hexEncode bs1 h1, hexDecode_hexEncode bs2 h2] at this

/-! ## EncryptionManager (src/unnamed/part_006)

The manager calls Node's `crypto.createCipheriv('aes-256-gcm', key, iv)` and
its decryption counterpart.  The AES-256-GCM primitive is external library
code, so it is modelled abstractly: a `GcmCipher` packages the
key-specialised encryption, decryption and authentication-tag functions
(the manager's key is fixed at construction, derived by `scryptSync` from the
passphrase, so it is folded into the cipher), together with the
correctness contract authenticated ciphers satisfy: decryption inverts
encryption under the same IV, and ciphertexts and tags are byte sequences. -/

structure GcmCipher where
  enc : List Nat → List Nat → List Nat
  dec : List Nat → List Nat → List Nat
  tag : List Nat → List Nat → List Nat
  dec_enc : ∀ iv p, (∀ b ∈ p, b < 256) → dec iv (enc iv p) = p
  enc_bytes : ∀ iv p, (∀ b ∈ p, b < 256) → ∀ b ∈ enc iv p, b < 256
  tag_bytes : ∀ iv ct, ∀ b ∈ tag iv ct, b < 256

/-- Structural error cases of `EncryptionManager.decrypt`: the explicit
`Invalid encrypted format` throw, and the authentication failure raised by
`decipher.final` when the tag does not verify. -/
inductive DecryptError where
  | invalidFormat : DecryptError
  | authMismatch : DecryptError
deriving DecidableEq

namespace EncryptionManager

/-- Embedding of `EncryptionManager.encrypt`: the plaintext is encrypted under
the supplied IV (the source draws `iv = crypto.randomBytes(16)`; the embedding
takes the drawn IV as an argument), the GCM tag is read back, and the payload
is the three hex fields joined by colons. -/
def encrypt (c : GcmCipher) (iv text : List Nat) : List Char :=
  let ct := c.enc iv text
  hexEncode iv ++ ':' :: (hexEncode (c.tag iv ct) ++ ':' :: hexEncode ct)

/-- Embedding of `EncryptionManager.decrypt`: split on `':'`, reject unless
exactly three parts, hex-decode IV, tag and ciphertext, then decrypt with tag
verification. -/
def decrypt (c : GcmCipher) (encrypted : List Char) : Except DecryptError (List Nat) :=
  let parts := splitOnChar ':' encrypted
  if parts.length = 3 then
    let iv := hexDecode (parts.getD 0 [])
    let authTag := hexDecode (parts.getD 1 [])
    let ct := hexDecode (parts.getD 2 [])
    if c.tag iv ct = authTag then Except.ok (c.dec iv ct) else Except.error DecryptError.authMismatch
  else Except.error DecryptError.invalidFormat

theorem splitOnChar_encrypt (c : GcmCipher) (iv text : List Nat) :
    splitOnChar ':' (encrypt c iv text) =
      [hexEncode iv, hexEncode (c.tag iv (c.enc iv text)), hexEncode (c.enc iv text)] := by
  unfold encrypt
  rw [splitOnChar_append_sep_left ':' _ _ (colon_not_mem_hexEncode iv)]
  rw [splitOnChar_append_sep_left ':' _ _ (colon_not_mem_hexEncode _)]
  rw [splitOnChar_of_not_mem ':' _ (colon_not_mem_hexEncode _)]

theorem decrypt_encrypt (c : GcmCipher) (iv text : List Nat)
    (hiv : ∀ b ∈ iv, b < 256) (htext : ∀ b ∈ text, b < 256) :
    decrypt c (encrypt c iv text) = Except.ok text := by
  unfold decrypt
  rw [splitOnChar_encrypt]
  simp only [List.length_cons, List.length_nil, Nat.reduceAdd, reduceIte, List.getD,
    List.get?_cons_zero, List.get?_cons_succ, Option.getD_some]
  rw [hexDecode_hexEncode iv hiv,
    hexDecode_hexEncode _ (c.tag_bytes iv (c.enc iv text)),
    hexDecode_hexEncode _ (c.enc_bytes iv text htext)]
  rw [if_pos rfl, c.dec_enc iv text htext]

end EncryptionManager

/-! ## EnvParser (src/unnamed/part_006)

`EnvParser.parse` splits the file content on `'\n'` and walks the lines with
an index that the multiline-continuation `while` loop advances.  The embedding
turns that loop into a single structural pass: `parseGo none` processes fresh
lines, `parseGo (some (key, value))` is the state inside the continuation
loop (the pending value ends with a backslash).  Bindings are produced in
execution order; the JS object built by `result[key] = value` is read back by
`objGet`, under which a later assignment overwrites an earlier one. -/

/-- Embedding of the quote-removal step of `EnvParser.parse`: a value that
starts and ends with the same (double or single) quote loses its first and
last character, exactly as `value.slice(1, -1)`. -/
def stripQuotes (v : List Char) : List Char :=
  if (v.head? = some '\"' ∧ v.getLast? = some '\"') ∨
     (v.head? = some '\'' ∧ v.getLast? = some '\'') then (v.drop 1).dropLast else v

/-- Line-walking loop of `EnvParser.parse` (see the namespace doc comment). -/
def parseGo : Option (List Char × List Char) → List (List Char) → List (List Char × List Char)
  | none, [] => []
  | some kv, [] => [kv]
  | some kv, l :: ls =>
    let v2 := kv.2.dropLast ++ '\n' :: jsTrim l
    if v2.getLast? = some '\\' ∧ ls ≠ [] then parseGo (some (kv.1, v2)) ls
    else (kv.1, v2) :: parseGo none ls
  | none, l :: ls =>
    let t := jsTrim l
    if t = [] ∨ t.head? = some '#' then parseGo none ls
    else if '=' ∈ t then
      let key := jsTrim (t.takeWhile (fun c => c != '='))
      let v0 := stripQuotes (jsTrim ((t.dropWhile (fun c => c != '=')).tail))
      if v0.getLast? = some '\\' ∧ ls ≠ [] then parseGo (some (key, v0)) ls
      else (key, v0) :: parseGo none ls
    else parseGo none ls

namespace EnvParser

/-- Embedding of `EnvParser.parse`: parse .env file content only. -/
def parse (content : List Char) : List (List Char × List Char) :=
  parseGo none (splitOnChar '\n' content)

/-- Embedding of parsing as the ambient JavaScript runtime sees it: every
function can reach the process environment (`process.env`), so the embedding
passes it explicitly; the translated body of `EnvParser.parse` references only
its `content` parameter and never the environment. -/
def parseWithEnv (processEnv : List (List Char × List Char)) (content : List Char) :
    List (List Char × List Char) :=
  parse content

end EnvParser

/-- Reading a JavaScript object that was built by sequential
`result[key] = value` assignments: the latest assignment to a key wins. -/
def objGet (ps : List (List Char × List Char)) (k : List Char) : Option (List Char) :=
  ps.foldl (fun acc p => if p.1 = k then some p.2 else acc) none

theorem takeWhile_ne_append (k v : List Char) (hk : '=' ∉ k) :
    (k ++ '=' :: v).takeWhile (fun c => c != '=') = k := by
  induction k with
  | nil => simp [List.takeWhile]
  | cons c cs ih =>
    have hc : c ≠ '=' := fun h => hk (by simp [h])
    have hcs : '=' ∉ cs := fun h => hk (by simp [h])
    simp only [List.cons_append, List.takeWhile_cons]
    rw [if_pos (by simpa using hc)]
    rw [ih hcs]

theorem dropWhile_ne_append (k v : List Char) (hk : '=' ∉ k) :
    (k ++ '=' :: v).dropWhile (fun c => c != '=') = '=' :: v := by
  induction k with
  | nil => simp [List.dropWhile]
  | cons c cs ih =>
    have hc : c ≠ '=' := fun h => hk (by simp [h])
    have hcs : '=' ∉ cs := fun h => hk (by simp [h])
    simp only [List.cons_append, List.dropWhile_cons]
    rw [if_pos (by simpa using hc)]
    exact ih hcs

theorem parseGo_skip (l : List Char) (rest : List (List Char))
    (h : jsTrim l = [] ∨ (jsTrim l).head? = some '#') :
    parseGo none (l :: rest) = parseGo none rest := by
  simp only [parseGo]
  rw [if_pos h]

/-- One fresh `key=value` line: how `EnvParser.parse` dissects it. -/
theorem parseGo_assign (l : List Char) (rest : List (List Char)) (k v : List Char)
    (hdec : jsTrim l = k ++ '=' :: v) (hk : '=' ∉ k)
    (hhash : (jsTrim l).head? ≠ some '#') :
    parseGo none (l :: rest) =
      if (stripQuotes (jsTrim v)).getLast? = some '\\' ∧ rest ≠ [] then
        parseGo (some (jsTrim k, stripQuotes (jsTrim v))) rest
      else (jsTrim k, stripQuotes (jsTrim v)) :: parseGo none rest := by
  have hne : jsTrim l ≠ [] := by
    rw [hdec]
    simp
  simp only [parseGo]
  rw [if_neg (by push_neg; exact ⟨hne, hhash⟩)]
  rw [if_pos (by rw [hdec]; simp)]
  rw [hdec, takeWhile_ne_append k v hk, dropWhile_ne_append k v hk]
  simp only [List.tail_cons]

/-- One step of the continuation loop. -/
theorem parseGo_cont (kv : List Char × List Char) (l : List Char) (ls : List (List Char)) :
    parseGo (some kv) (l :: ls) =
      if (kv.2.dropLast ++ '\n' :: jsTrim l).getLast? = some '\\' ∧ ls ≠ [] then
        parseGo (some (kv.1, kv.2.dropLast ++ '\n' :: jsTrim l)) ls
      else (kv.1, kv.2.dropLast ++ '\n' :: jsTrim l) :: parseGo none ls := rfl

theorem stripQuotes_of_wrapped (q : Char) (inner : List Char)
    (hq : q = '\"' ∨ q = '\'') : stripQuotes (q :: (inner ++ [q])) = inner := by
  have hhead : (q :: (inner ++ [q])).head? = some q := rfl
  have hlast : (q :: (inner ++ [q])).getLast? = some q := by
    rw [show q :: (inner ++ [q]) = (q :: inner) ++ [q] by simp]
    exact List.getLast?_concat _
  unfold stripQuotes
  rw [if_pos ?side]
  · simp
  case side =>
    rcases hq with hq | hq <;> subst hq
    · exact Or.inl ⟨hhead, hlast⟩
    · exact Or.inr ⟨hhead, hlast⟩

theorem stripQuotes_of_not_wrapped (v : List Char)
    (hd : ¬(v.head? = some '\"' ∧ v.getLast? = some '\"'))
    (hs : ¬(v.head? = some '\'' ∧ v.getLast? = some '\'')) : stripQuotes v = v := by
  unfold stripQuotes
  rw [if_neg (by push_neg at hd hs ⊢; exact ⟨hd, hs⟩)]

/-! ## FileManager (src/unnamed/part_007)

`FileManager.updateKey` reads the file, tests the multiline regular
expression built by interpolating the key verbatim (matching a whole line
that starts with `key=`), replaces the first matching line with the
interpolated `key=value` replacement string or appends one, and writes the
result back.  The embedding models the regular-expression test as a
line-prefix test and the replacement as a literal insertion.  That model
coincides with the source exactly on the literal fragment, characterised by
`regexMetaChar` and `jsLineTerminator`: the key contains no
regular-expression metacharacter and no line terminator, the value contains
no `$` (so no JavaScript replacement pattern) and no line terminator, and
the content's only line terminator is `'\n'`.  Outside that fragment the
source diverges from the model (and from the replace-or-append/idempotence
property itself): a `$&` in the value is expanded by `replace` to the
matched line, a metacharacter key such as `A.B` makes the regex match lines
other than literal `A.B=` ones, and a `'\r'` (or U+2028/U+2029) is a line
boundary for the multiline anchors but not for `split('\n')`.  The theorem
about `updateKey` therefore quantifies only over the literal fragment. -/

/-- The characters that are special in a JavaScript regular expression; a
key containing none of them is matched literally by the interpolated
regex. -/
def regexMetaChar (c : Char) : Bool :=
  ['^', '$', '\\', '.', '*', '+', '?', '(', ')', '[', ']', '\x7B', '\x7D', '|'].contains c

/-- The ECMAScript line terminators, which the multiline anchors `^`/`$`
match around and `.` does not match. -/
def jsLineTerminator (c : Char) : Bool :=
  c == '\n' || c == '\r' || c == '\u2028' || c == '\u2029'

/-- Bool test that the second list starts with the first. -/
def startsWithChars : List Char → List Char → Bool
  | [], _ => true
  | _ :: _, [] => false
  | p :: ps, c :: cs => p == c && startsWithChars ps cs

theorem startsWithChars_append_self (p r : List Char) :
    startsWithChars p (p ++ r) = true := by
  induction p with
  | nil => rfl
  | cons c cs ih => simp [startsWithChars, ih]

namespace FileManager

/-- First-match replacement of a `key=` line, as performed by
`content.replace(regex, ...)` with the non-global multiline regex. -/
def replaceFirstKeyLine (key value : List Char) : List (List Char) → List (List Char)
  | [] => []
  | l :: ls =>
    if startsWithChars (key ++ ['=']) l then (key ++ '=' :: value) :: ls
    else l :: replaceFirstKeyLine key value ls

/-- Embedding of `FileManager.updateKey` (see the namespace doc comment). -/
def updateKey (content key value : List Char) : List Char :=
  if (splitOnChar '\n' content).any (fun l => startsWithChars (key ++ ['=']) l) then
    joinChar '\n' (replaceFirstKeyLine key value (splitOnChar '\n' content))
  else content ++ '\n' :: (key ++ '=' :: value)

theorem replaceFirstKeyLine_cons (key value l : List Char) (ls : List (List Char)) :
    replaceFirstKeyLine key value (l :: ls) =
      if startsWithChars (key ++ ['=']) l = true then (key ++ '=' :: value) :: ls
      else l :: replaceFirstKeyLine key value ls := rfl

theorem keyline_self_match (key value : List Char) :
    startsWithChars (key ++ ['=']) (key ++ '=' :: value) = true := by
  have := startsWithChars_append_self (key ++ ['=']) value
  simpa using this

theorem replaceFirstKeyLine_append_of_none (key value : List Char) (ls ys : List (List Char))
    (h : ∀ l ∈ ls, startsWithChars (key ++ ['=']) l = false) :
    replaceFirstKeyLine key value (ls ++ ys) = ls ++ replaceFirstKeyLine key value ys := by
  induction ls with
  | nil => simp
  | cons l ls' ih =>
    rw [List.cons_append, replaceFirstKeyLine_cons,
      if_neg (by simp [h l (by simp)]), ih (fun x hx => h x (by simp [hx]))]
    rfl

theorem replaceFirstKeyLine_idem (key value : List Char) (ls : List (List Char)) :
    replaceFirstKeyLine key value (replaceFirstKeyLine key value ls) =
      replaceFirstKeyLine key value ls := by
  induction ls with
  | nil => rfl
  | cons l ls' ih =>
    by_cases h : startsWithChars (key ++ ['=']) l = true
    · rw [replaceFirstKeyLine_cons, if_pos h, replaceFirstKeyLine_cons,
        if_pos (keyline_self_match key value)]
    · rw [replaceFirstKeyLine_cons, if_neg h, replaceFirstKeyLine_cons, if_neg h, ih]

theorem mem_replaceFirstKeyLine (key value : List Char) (ls : List (List Char)) :
    ∀ g ∈ replaceFirstKeyLine key value ls, g ∈ ls ∨ g = key ++ '=' :: value := by
  induction ls with
  | nil => simp [replaceFirstKeyLine]
  | cons l ls' ih =>
    intro g hg
    rw [replaceFirstKeyLine_cons] at hg
    by_cases h : startsWithChars (key ++ ['=']) l = true
    · rw [if_pos h] at hg
      rcases List.mem_cons.mp hg with hg | hg
      · exact Or.inr hg
      · exact Or.inl (by simp [hg])
    · rw [if_neg h] at hg
      rcases List.mem_cons.mp hg with hg | hg
      · exact Or.inl (by simp [hg])
      · rcases ih g hg with h2 | h2
        · exact Or.inl (by simp [h2])
        · exact Or.inr h2

theorem replaceFirstKeyLine_ne_nil (key value : List Char) (ls : List (List Char))
    (h : ls ≠ []) : replaceFirstKeyLine key value ls ≠ [] := by
  cases ls with
  | nil => exact absurd rfl h
  | cons l ls' =>
    rw [replaceFirstKeyLine_cons]
    by_cases hl : startsWithChars (key ++ ['=']) l = true
    · rw [if_pos hl]
      simp
    · rw [if_neg hl]
      simp

theorem any_replaceFirstKeyLine (key value : List Char) (ls : List (List Char))
    (h : ls.any (fun l => startsWithChars (key ++ ['=']) l) = true) :
    (replaceFirstKeyLine key value ls).any
      (fun l => startsWithChars (key ++ ['=']) l) = true := by
  induction ls with
  | nil => simpa using h
  | cons l ls' ih =>
    rw [replaceFirstKeyLine_cons]
    by_cases hl : startsWithChars (key ++ ['=']) l = true
    · rw [if_pos hl]
      simp [keyline_self_match key value]
    · rw [if_neg hl]
      simp only [List.any_cons, Bool.or_eq_true]
      right
      apply ih
      simp only [List.any_cons, Bool.or_eq_true] at h
      rcases h with h | h
      · exact absurd h hl
      · exact h

theorem newline_not_mem_keyline (key value : List Char) (hkey : '\n' ∉ key)
    (hval : '\n' ∉ value) : '\n' ∉ key ++ '=' :: value := by
  intro h
  rcases List.mem_append.mp h with h | h
  · exact hkey h
  · rcases List.mem_cons.mp h with h | h
    · exact absurd h.symm (by decide)
    · exact hval h

theorem updateKey_eq_of_any (content key value : List Char)
    (h : (splitOnChar '\n' content).any (fun l => startsWithChars (key ++ ['=']) l) = true) :
    updateKey content key value =
      joinChar '\n' (replaceFirstKeyLine key value (splitOnChar '\n' content)) := by
  unfold updateKey
  rw [if_pos h]

theorem updateKey_of_no_match (content key value : List Char)
    (h : ∀ l ∈ splitOnChar '\n' content, startsWithChars (key ++ ['=']) l = false) :
    updateKey content key value = content ++ '\n' :: (key ++ '=' :: value) := by
  unfold updateKey
  rw [if_neg (by
    simp only [List.any_eq_true, not_exists]
    intro x
    rw [not_and]
    intro hx
    simp [h x hx])]

theorem updateKey_of_match (content key value : List Char)
    (pre post : List (List Char)) (l : List Char)
    (hkey : '\n' ∉ key) (hval : '\n' ∉ value)
    (hsplit : splitOnChar '\n' content = pre ++ l :: post)
    (hpre : ∀ l' ∈ pre, startsWithChars (key ++ ['=']) l' = false)
    (hl : startsWithChars (key ++ ['=']) l = true) :
    splitOnChar '\n' (updateKey content key value) =
      pre ++ (key ++ '=' :: value) :: post := by
  rw [updateKey_eq_of_any content key value (by
    rw [hsplit]
    simp only [List.any_append, List.any_cons, Bool.or_eq_true]
    right; left; exact hl)]
  rw [hsplit, replaceFirstKeyLine_append_of_none key value pre (l :: post) hpre,
    replaceFirstKeyLine_cons, if_pos hl]
  apply splitOnChar_joinChar
  · simp
  · intro g hg
    rcases List.mem_append.mp hg with hg | hg
    · exact not_mem_of_mem_splitOnChar '\n' content g
        (by rw [hsplit]; exact List.mem_append_left _ hg)
    · rcases List.mem_cons.mp hg with hg | hg
      · rw [hg]
        exact newline_not_mem_keyline key value hkey hval
      · exact not_mem_of_mem_splitOnChar '\n' content g
          (by rw [hsplit]; exact List.mem_append_right _ (by simp [hg]))

theorem updateKey_idem (content key value : List Char)
    (hkey : '\n' ∉ key) (hval : '\n' ∉ value) :
    updateKey (updateKey content key value) key value = updateKey content key value := by
  have hkv : '\n' ∉ key ++ '=' :: value := newline_not_mem_keyline key value hkey hval
  by_cases hany : (splitOnChar '\n' content).any
      (fun l => startsWithChars (key ++ ['=']) l) = true
  · have h1 := updateKey_eq_of_any content key value hany
    have hlines2 : splitOnChar '\n' (updateKey content key value) =
        replaceFirstKeyLine key value (splitOnChar '\n' content) := by
      rw [h1]
      apply splitOnChar_joinChar
      · exact replaceFirstKeyLine_ne_nil key value _ (splitOnChar_ne_nil '\n' content)
      · intro g hg
        rcases mem_replaceFirstKeyLine key value _ g hg with h | h
        · exact not_mem_of_mem_splitOnChar '\n' content g h
        · rw [h]; exact hkv
    have h2 := updateKey_eq_of_any (updateKey content key value) key value (by
      rw [hlines2]
      exact any_replaceFirstKeyLine key value _ hany)
    rw [h2, hlines2, replaceFirstKeyLine_idem, ← h1]
  · have hall : ∀ l ∈ splitOnChar '\n' content,
        startsWithChars (key ++ ['=']) l = false := by
      intro l hl
      by_contra hne
      exact hany (List.any_eq_true.mpr ⟨l, hl, by simpa using hne⟩)
    have h1 : updateKey content key value = content ++ '\n' :: (key ++ '=' :: value) :=
      updateKey_of_no_match content key value hall
    have hlines2 : splitOnChar '\n' (updateKey content key value) =
        splitOnChar '\n' content ++ [key ++ '=' :: value] := by
      rw [h1]
      exact splitOnChar_append_sep_right '\n' content _ hkv
    have h2 := updateKey_eq_of_any (updateKey content key value) key value (by
      rw [hlines2]
      simp [keyline_self_match key value])
    rw [h2, hlines2, replaceFirstKeyLine_append_of_none key value _ _ hall,
      replaceFirstKeyLine_cons, if_pos (keyline_self_match key value),
      joinChar_append_singleton '\n' _ _ (splitOnChar_ne_nil '\n' content),
      joinChar_splitOnChar, ← h1]

end FileManager

/-! ## Schema types (src/unnamed/part_005) and TypeValidator
(src/src/utils/parseDotenvFile.ts) -/

/-- Embedding of the `EnvType` union of field types. -/
inductive EnvType where
  | string
  | number
  | boolean
  | enum
  | url
  | email
  | port
  | json
deriving DecidableEq

/-- Embedding of `EnvFieldConfig`.  Optional booleans are modelled as `Bool`
(an absent property is falsy).  The function-valued properties (`transform`,
`validate`) and the `pattern` regular expression are omitted: no embedded
operation reads them.  `example` and `default` are Lean keywords and appear
as `exampleVal`/`defaultVal`; the numeric bounds are integers, the fragment
the verified claims exercise. -/
structure EnvFieldConfig where
  type : EnvType
  required : Bool
  sensitive : Bool
  deprecated : Bool
  min : Option Int
  max : Option Int
  enum : Option (List (List Char))
  description : Option (List Char)
  exampleVal : Option (List Char)
  defaultVal : Option (List Char)
  group : Option (List Char)
deriving DecidableEq

/-- ASCII lower-casing, the fragment of `String.prototype.toLowerCase` the
boolean keywords need. -/
def lowerChar (c : Char) : Char :=
  if 'A' ≤ c ∧ c ≤ 'Z' then Char.ofNat (c.toNat + 32) else c

/-- Accumulating decimal parse used by the `jsNumber` fragment. -/
def parseDigitsAux (acc : Nat) : List Char → Option Nat
  | [] => some acc
  | c :: cs =>
    if '0' ≤ c ∧ c ≤ '9' then parseDigitsAux (acc * 10 + (c.toNat - '0'.toNat)) cs
    else none

/-- Modelled fragment of the ECMAScript `Number` coercion of strings, as used
by `validateNumber` and `validatePort`: the input is whitespace-trimmed, the
empty string coerces to `0`, and an optionally signed string of decimal
digits coerces to the corresponding integer.  Unparseable strings give `NaN`,
modelled as `none`.  Other numeric syntaxes (fractions, exponents, hex,
`Infinity`) are outside the fragment the verified claims exercise. -/
def jsNumber (s : List Char) : Option Int :=
  match jsTrim s with
  | [] => some 0
  | '-' :: ds => if ds = [] then none else (parseDigitsAux 0 ds).map (fun n => -(n : Int))
  | '+' :: ds => if ds = [] then none else (parseDigitsAux 0 ds).map (fun n => (n : Int))
  | ds => (parseDigitsAux 0 ds).map (fun n => (n : Int))

/-- Validation failures of `TypeValidator`.  Each constructor corresponds to
one `throw new Error(...)` site, carrying the data interpolated into the
message. -/
inductive VError where
  | invalidNumber (raw : List Char)
  | belowMin (bound : Int)
  | aboveMax (bound : Int)
  | invalidBool (raw : List Char)
  | invalidPort (raw : List Char)
deriving DecidableEq

namespace TypeValidator

/-- The `config.max !== undefined && num > config.max` check of
`validateNumber`. -/
def checkMax (num : Int) : Option Int → Except VError Int
  | some bound => if num > bound then Except.error (VError.aboveMax bound) else Except.ok num
  | none => Except.ok num

/-- Embedding of `TypeValidator.validateNumber`: coerce with `Number`, reject
`NaN`, then check the optional `min`/`max` bounds in order. -/
def validateNumber (value : List Char) (config : EnvFieldConfig) : Except VError Int :=
  match jsNumber value with
  | none => Except.error (VError.invalidNumber value)
  | some num =>
    match config.min with
    | some bound =>
      if num < bound then Except.error (VError.belowMin bound) else checkMax num config.max
    | none => checkMax num config.max

/-- Embedding of `TypeValidator.validateBoolean` on string raw values (the
`typeof value === 'boolean'` early return concerns already-typed values and
is outside the string fragment parsed from a .env file). -/
def validateBoolean (value : List Char) : Except VError Bool :=
  let str := value.map lowerChar
  if str = ['t', 'r', 'u', 'e'] ∨ str = ['1'] ∨ str = ['y', 'e', 's'] then Except.ok true
  else if str = ['f', 'a', 'l', 's', 'e'] ∨ str = ['0'] ∨ str = ['n', 'o'] then Except.ok false
  else Except.error (VError.invalidBool value)

/-- Embedding of `TypeValidator.validatePort`: coerce with `Number` and
reject `NaN` or a value outside `[1, 65535]`. -/
def validatePort (value : List Char) : Except VError Int :=
  match jsNumber value with
  | none => Except.error (VError.invalidPort value)
  | some num =>
    if num < 1 ∨ num > 65535 then Except.error (VError.invalidPort value) else Except.ok num

end TypeValidator

/-! ## EnvGuardSwagger (src/unnamed/part_003) -/

/-- One generated property object of the OpenAPI `Environment` schema. -/
structure SwaggerProperty where
  type : List Char
  description : Option (List Char)
  exampleVal : Option (List Char)
  defaultVal : Option (List Char)
  enumVals : Option (List (List Char))
deriving DecidableEq

/-- The `Environment` schema object generated inside
`components.schemas`; the constant wrapper layers around it carry no
information and are not modelled. -/
structure SwaggerDoc where
  properties : List (List Char × SwaggerProperty)
  required : List (List Char)
deriving DecidableEq

namespace EnvGuardSwagger

/-- Embedding of `EnvGuardSwagger.mapType`. -/
def mapType : EnvType → List Char
  | EnvType.number => ['i', 'n', 't', 'e', 'g', 'e', 'r']
  | EnvType.port => ['i', 'n', 't', 'e', 'g', 'e', 'r']
  | EnvType.boolean => ['b', 'o', 'o', 'l', 'e', 'a', 'n']
  | EnvType.json => ['o', 'b', 'j', 'e', 'c', 't']
  | _ => ['s', 't', 'r', 'i', 'n', 'g']

/-- The property object built for one non-sensitive field (the `enum`
property is added exactly when the config carries one). -/
def mkProperty (config : EnvFieldConfig) : SwaggerProperty :=
  ⟨mapType config.type, config.description, config.exampleVal, config.defaultVal, config.enum⟩

/-- The `for (const [key, config] of Object.entries(schema))` loop of
`generateSwaggerDoc`, returning the `properties` and `required`
accumulators in insertion order. -/
def swaggerEntries :
    List (List Char × EnvFieldConfig) → List (List Char × SwaggerProperty) × List (List Char)
  | [] => ([], [])
  | (key, config) :: rest =>
    let r := swaggerEntries rest
    if config.sensitive then r
    else ((key, mkProperty config) :: r.1, if config.required then key :: r.2 else r.2)

/-- Embedding of `EnvGuardSwagger.generateSwaggerDoc`. -/
def generateSwaggerDoc (schema : List (List Char × EnvFieldConfig)) : SwaggerDoc :=
  ⟨(swaggerEntries schema).1, (swaggerEntries schema).2⟩

theorem swaggerEntries_cons (key : List Char) (config : EnvFieldConfig)
    (rest : List (List Char × EnvFieldConfig)) :
    swaggerEntries ((key, config) :: rest) =
      if config.sensitive = true then swaggerEntries rest
      else ((key, mkProperty config) :: (swaggerEntries rest).1,
        if config.required = true then key :: (swaggerEntries rest).2
        else (swaggerEntries rest).2) := rfl

theorem mem_schema_of_mem_properties (schema : List (List Char × EnvFieldConfig)) :
    ∀ k ∈ (swaggerEntries schema).1.map Prod.fst, k ∈ schema.map Prod.fst := by
  induction schema with
  | nil => simp [swaggerEntries]
  | cons e rest ih =>
    obtain ⟨key, config⟩ := e
    intro k hk
    simp only [swaggerEntries] at hk
    by_cases hs : config.sensitive = true
    · rw [if_pos hs] at hk
      exact List.mem_cons_of_mem _ (ih k hk)
    · rw [if_neg hs] at hk
      simp only [List.map_cons, List.mem_cons] at hk ⊢
      rcases hk with hk | hk
      · exact Or.inl hk
      · exact Or.inr (ih k hk)

theorem mem_schema_of_mem_required (schema : List (List Char × EnvFieldConfig)) :
    ∀ k ∈ (swaggerEntries schema).2, k ∈ schema.map Prod.fst := by
  induction schema with
  | nil => simp [swaggerEntries]
  | cons e rest ih =>
    obtain ⟨key, config⟩ := e
    intro k hk
    simp only [swaggerEntries] at hk
    by_cases hs : config.sensitive = true
    · rw [if_pos hs] at hk
      exact List.mem_cons_of_mem _ (ih k hk)
    · rw [if_neg hs] at hk
      by_cases hr : config.required = true
      · rw [if_pos hr] at hk
        simp only [List.mem_cons] at hk
        rcases hk with hk | hk
        · subst hk
          rw [List.map_cons]
          exact List.mem_cons_self _ _
        · exact List.mem_cons_of_mem _ (ih k hk)
      · rw [if_neg hr] at hk
        exact List.mem_cons_of_mem _ (ih k hk)

end EnvGuardSwagger

/-! ## Claim theorems -/

/-- Identity-cipher instance of the abstract GCM contract, used to
instantiate the claim theorems on concrete inputs. -/
def idGcm : GcmCipher :=
  ⟨fun _ p => p, fun _ p => p, fun _ _ => [], fun _ _ _ => rfl, fun _ _ h => h,
    fun _ _ b hb => absurd hb (List.not_mem_nil b)⟩

/-- C1: decrypting an encrypted payload returns the original plaintext, and
two `encrypt` calls on the same plaintext whose (freshly drawn, hence
distinct) 16-byte initialization vectors differ produce different payload
strings, both of which still decrypt to the plaintext. -/
theorem C1_encrypt_decrypt_roundtrip_fresh_iv (c : GcmCipher) (iv1 iv2 text : List Nat)
    (hlen1 : iv1.length = 16) (hlen2 : iv2.length = 16)
    (hb1 : ∀ b ∈ iv1, b < 256) (hb2 : ∀ b ∈ iv2, b < 256)
    (ht : ∀ b ∈ text, b < 256) :
    EncryptionManager.decrypt c (EncryptionManager.encrypt c iv1 text) = Except.ok text ∧
    EncryptionManager.decrypt c (EncryptionManager.encrypt c iv2 text) = Except.ok text ∧
    (iv1 ≠ iv2 →
      EncryptionManager.encrypt c iv1 text ≠ EncryptionManager.encrypt c iv2 text) := by
  refine ⟨EncryptionManager.decrypt_encrypt c iv1 text hb1 ht,
    EncryptionManager.decrypt_encrypt c iv2 text hb2 ht, ?_⟩
  intro hne heq
  simp only [EncryptionManager.encrypt] at heq
  have hlen : (hexEncode iv1).length = (hexEncode iv2).length := by
    rw [hexEncode_length, hexEncode_length, hlen1, hlen2]
  exact hne (hexEncode_inj iv1 iv2 hb1 hb2 (List.append_inj heq hlen).1)

/-- Witness for C1 at the identity cipher, a zero IV versus an IV differing
in its first byte, and a two-byte plaintext. -/
theorem C1_witness :
    EncryptionManager.decrypt idGcm
        (EncryptionManager.encrypt idGcm (List.replicate 16 0) [7, 8]) = Except.ok [7, 8] ∧
    EncryptionManager.encrypt idGcm (List.replicate 16 0) [7, 8] ≠
      EncryptionManager.encrypt idGcm (1 :: List.replicate 15 0) [7, 8] := by
  have h := C1_encrypt_decrypt_roundtrip_fresh_iv idGcm (List.replicate 16 0)
    (1 :: List.replicate 15 0) [7, 8] (by decide) (by decide) (by decide) (by decide) (by decide)
  exact ⟨h.1, h.2.2 (by decide)⟩

/-- C2: on each line the parser trims, skips blank lines and `#` comments,
splits at the first `=` into a trimmed key and trimmed value, strips one pair
of surrounding matching double or single quotes from the value, and joins a
value with a trailing backslash to the following (trimmed) line through a
newline. -/
theorem C2_parse_line_discipline :
    (∀ l rest, jsTrim l = [] → parseGo none (l :: rest) = parseGo none rest) ∧
    (∀ l rest, (jsTrim l).head? = some '#' → parseGo none (l :: rest) = parseGo none rest) ∧
    (∀ l rest k v, jsTrim l = k ++ '=' :: v → '=' ∉ k → (jsTrim l).head? ≠ some '#' →
      (stripQuotes (jsTrim v)).getLast? ≠ some '\\' →
      parseGo none (l :: rest) = (jsTrim k, stripQuotes (jsTrim v)) :: parseGo none rest) ∧
    (∀ q inner, q = '\"' ∨ q = '\'' → stripQuotes (q :: (inner ++ [q])) = inner) ∧
    (∀ v, ¬(v.head? = some '\"' ∧ v.getLast? = some '\"') →
      ¬(v.head? = some '\'' ∧ v.getLast? = some '\'') → stripQuotes v = v) ∧
    (∀ l n ns k v w, jsTrim l = k ++ '=' :: v → '=' ∉ k → (jsTrim l).head? ≠ some '#' →
      stripQuotes (jsTrim v) = w ++ ['\\'] →
      (w ++ '\n' :: jsTrim n).getLast? ≠ some '\\' →
      parseGo none (l :: n :: ns) = (jsTrim k, w ++ '\n' :: jsTrim n) :: parseGo none ns) := by
  refine ⟨?_, ?_, ?_, stripQuotes_of_wrapped, stripQuotes_of_not_wrapped, ?_⟩
  · intro l rest h
    exact parseGo_skip l rest (Or.inl h)
  · intro l rest h
    exact parseGo_skip l rest (Or.inr h)
  · intro l rest k v hdec hk hhash hlast
    rw [parseGo_assign l rest k v hdec hk hhash, if_neg (fun hC => hlast hC.1)]
  · intro l n ns k v w hdec hk hhash hw hlast
    rw [parseGo_assign l (n :: ns) k v hdec hk hhash]
    rw [if_pos ⟨by rw [hw]; exact List.getLast?_concat _, by simp⟩]
    rw [parseGo_cont]
    simp only [hw, List.dropLast_concat]
    rw [if_neg (fun hC => hlast hC.1)]

/-- Witness for C2: a key=value line whose value ends in a backslash is
joined with the following line. -/
theorem C2_witness :
    parseGo none [['A', '=', 'b', '\\'], ['c']] = [(['A'], ['b', '\n', 'c'])] := by
  have h := C2_parse_line_discipline.2.2.2.2.2 ['A', '=', 'b', '\\'] ['c'] [] ['A'] ['b', '\\']
    ['b'] (by decide) (by decide) (by decide) (by decide) (by decide)
  rw [h]
  decide

/-- C3 counterexample: with a value that contains a newline the operation is
not idempotent.  Starting from the file `X=1`, updating key `K` to the value
`a\nK=b` appends `\nK=a\nK=b`; running the same update again now finds a line
`K=a`, replaces it with the whole value again, and produces a longer file. -/
theorem C3_counterexample :
    FileManager.updateKey
        (FileManager.updateKey ['X', '=', '1'] ['K'] ['a', '\n', 'K', '=', 'b'])
        ['K'] ['a', '\n', 'K', '=', 'b'] ≠
      FileManager.updateKey ['X', '=', '1'] ['K'] ['a', '\n', 'K', '=', 'b'] := by decide

/-- C3 (amended): on the literal fragment of the interpolated regex and
replacement — the key contains no regular-expression metacharacter and no
line terminator, the value contains no `$` (no replacement pattern) and no
line terminator, and the content's only line terminator is `'\n'` —
`updateKey` replaces the first existing `key=` line in place (leaving every
other line unchanged), or appends a `key=value` line when no line starts
with `key=`, and the operation is idempotent.  Outside the fragment the
source itself violates the claim: a newline in the value breaks idempotence
(see the counterexample), a `$&` in the value is expanded to the matched
line by `replace` and also breaks idempotence, and a metacharacter key such
as `A.B` replaces a line like `AXB=1` instead of appending. -/
theorem C3_updateKey_replace_append_idem (content key value : List Char)
    (hkeyMeta : ∀ c ∈ key, regexMetaChar c = false)
    (hkeyTerm : ∀ c ∈ key, jsLineTerminator c = false)
    (hvalDollar : '$' ∉ value)
    (hvalTerm : ∀ c ∈ value, jsLineTerminator c = false)
    (hcontent : ∀ c ∈ content, jsLineTerminator c = true → c = '\n') :
    ((∀ l ∈ splitOnChar '\n' content, startsWithChars (key ++ ['=']) l = false) →
      FileManager.updateKey content key value = content ++ '\n' :: (key ++ '=' :: value)) ∧
    (∀ pre l post, splitOnChar '\n' content = pre ++ l :: post →
      (∀ l' ∈ pre, startsWithChars (key ++ ['=']) l' = false) →
      startsWithChars (key ++ ['=']) l = true →
      splitOnChar '\n' (FileManager.updateKey content key value) =
        pre ++ (key ++ '=' :: value) :: post) ∧
    FileManager.updateKey (FileManager.updateKey content key value) key value =
      FileManager.updateKey content key value := by
  have hkey : '\n' ∉ key := fun h => by
    have := hkeyTerm '\n' h
    simp [jsLineTerminator] at this
  have hval : '\n' ∉ value := fun h => by
    have := hvalTerm '\n' h
    simp [jsLineTerminator] at this
  exact ⟨FileManager.updateKey_of_no_match content key value,
    fun pre l post hsplit hpre hl =>
      FileManager.updateKey_of_match content key value pre post l hkey hval hsplit hpre hl,
    FileManager.updateKey_idem content key value hkey hval⟩

/-- Witness for C3 (amended) at a key, value and content inside the literal
fragment. -/
theorem C3_witness :
    FileManager.updateKey (FileManager.updateKey ['A', '=', '1'] ['B'] ['2']) ['B'] ['2'] =
      FileManager.updateKey ['A', '=', '1'] ['B'] ['2'] :=
  (C3_updateKey_replace_append_idem ['A', '=', '1'] ['B'] ['2'] (by decide) (by decide)
    (by decide) (by decide) (by decide)).2.2

/-- C4: every encrypted payload consists of exactly three colon-delimited
hex fields (IV, authentication tag, ciphertext), and `decrypt` fails with the
structural format error on every input whose colon split does not have
exactly three parts. -/
theorem C4_payload_format (c : GcmCipher) (iv text : List Nat) :
    splitOnChar ':' (EncryptionManager.encrypt c iv text) =
      [hexEncode iv, hexEncode (c.tag iv (c.enc iv text)), hexEncode (c.enc iv text)] ∧
    (splitOnChar ':' (EncryptionManager.encrypt c iv text)).length = 3 ∧
    (∀ part ∈ splitOnChar ':' (EncryptionManager.encrypt c iv text),
      ∀ ch ∈ part, ch ∈ hexChars) ∧
    (∀ payload, (splitOnChar ':' payload).length ≠ 3 →
      EncryptionManager.decrypt c payload = Except.error DecryptError.invalidFormat) := by
  refine ⟨EncryptionManager.splitOnChar_encrypt c iv text, ?_, ?_, ?_⟩
  · rw [EncryptionManager.splitOnChar_encrypt]
    rfl
  · rw [EncryptionManager.splitOnChar_encrypt]
    intro part hp
    rcases List.mem_cons.mp hp with h | hp
    · exact h ▸ mem_hexChars_of_mem_hexEncode iv
    rcases List.mem_cons.mp hp with h | hp
    · exact h ▸ mem_hexChars_of_mem_hexEncode _
    rcases List.mem_cons.mp hp with h | hp
    · exact h ▸ mem_hexChars_of_mem_hexEncode _
    · exact absurd hp (List.not_mem_nil part)
  · intro payload hlen
    unfold EncryptionManager.decrypt
    rw [if_neg hlen]

/-- Witness for C4: a three-part payload from `encrypt`, and a malformed
input rejected by `decrypt`. -/
theorem C4_witness :
    EncryptionManager.decrypt idGcm ['a', 'b'] = Except.error DecryptError.invalidFormat ∧
    (splitOnChar ':' (EncryptionManager.encrypt idGcm [0] [1])).length = 3 := by
  have h := C4_payload_format idGcm [0] [1]
  exact ⟨h.2.2.2 ['a', 'b'] (by decide), h.2.1⟩

/-- C5: port validation rejects `0`, `65536` and `abc` and accepts `1`, `80`
and `65535`, returning the parsed number. -/
theorem C5_port_validation :
    TypeValidator.validatePort ['0'] = Except.error (VError.invalidPort ['0']) ∧
    TypeValidator.validatePort ['6', '5', '5', '3', '6'] =
      Except.error (VError.invalidPort ['6', '5', '5', '3', '6']) ∧
    TypeValidator.validatePort ['a', 'b', 'c'] =
      Except.error (VError.invalidPort ['a', 'b', 'c']) ∧
    TypeValidator.validatePort ['1'] = Except.ok 1 ∧
    TypeValidator.validatePort ['8', '0'] = Except.ok 80 ∧
    TypeValidator.validatePort ['6', '5', '5', '3', '5'] = Except.ok 65535 := by decide

/-- C6: boolean coercion is case-insensitive: lower-cased `true`/`1`/`yes`
coerce to `true`, lower-cased `false`/`0`/`no` coerce to `false`, and every
other string fails with the boolean type error. -/
theorem C6_boolean_case_insensitive (value : List Char) :
    (value.map lowerChar = ['t', 'r', 'u', 'e'] ∨ value.map lowerChar = ['1'] ∨
        value.map lowerChar = ['y', 'e', 's'] →
      TypeValidator.validateBoolean value = Except.ok true) ∧
    (value.map lowerChar = ['f', 'a', 'l', 's', 'e'] ∨ value.map lowerChar = ['0'] ∨
        value.map lowerChar = ['n', 'o'] →
      TypeValidator.validateBoolean value = Except.ok false) ∧
    (¬(value.map lowerChar = ['t', 'r', 'u', 'e'] ∨ value.map lowerChar = ['1'] ∨
        value.map lowerChar = ['y', 'e', 's']) →
      ¬(value.map lowerChar = ['f', 'a', 'l', 's', 'e'] ∨ value.map lowerChar = ['0'] ∨
        value.map lowerChar = ['n', 'o']) →
      TypeValidator.validateBoolean value = Except.error (VError.invalidBool value)) := by
  refine ⟨?_, ?_, ?_⟩
  · intro h
    unfold TypeValidator.validateBoolean
    rw [if_pos h]
  · intro h
    have hne : ¬(value.map lowerChar = ['t', 'r', 'u', 'e'] ∨ value.map lowerChar = ['1'] ∨
        value.map lowerChar = ['y', 'e', 's']) := by
      rcases h with h | h | h <;> rw [h] <;> decide
    unfold TypeValidator.validateBoolean
    rw [if_neg hne, if_pos h]
  · intro h1 h2
    unfold TypeValidator.validateBoolean
    rw [if_neg h1, if_neg h2]

/-- Witness for C6 at a mixed-case true, a mixed-case no, and a
non-boolean string. -/
theorem C6_witness :
    TypeValidator.validateBoolean ['T', 'R', 'U', 'E'] = Except.ok true ∧
    TypeValidator.validateBoolean ['N', 'o'] = Except.ok false ∧
    TypeValidator.validateBoolean ['x'] = Except.error (VError.invalidBool ['x']) :=
  ⟨(C6_boolean_case_insensitive ['T', 'R', 'U', 'E']).1 (by decide),
    (C6_boolean_case_insensitive ['N', 'o']).2.1 (by decide),
    (C6_boolean_case_insensitive ['x']).2.2 (by decide) (by decide)⟩

/-- C7: the generated OpenAPI document excludes sensitive fields: a sensitive
field's name appears neither among the generated properties nor in the
generated required list, even when the field is marked required. -/
theorem C7_swagger_excludes_sensitive (schema : List (List Char × EnvFieldConfig))
    (key : List Char) (config : EnvFieldConfig)
    (hnodup : (schema.map Prod.fst).Nodup)
    (hmem : (key, config) ∈ schema) (hsens : config.sensitive = true) :
    key ∉ (EnvGuardSwagger.generateSwaggerDoc schema).properties.map Prod.fst ∧
    key ∉ (EnvGuardSwagger.generateSwaggerDoc schema).required := by
  unfold EnvGuardSwagger.generateSwaggerDoc
  revert hnodup hmem
  induction schema with
  | nil =>
    intro _ hmem
    exact absurd hmem (List.not_mem_nil _)
  | cons e rest ih =>
    intro hnodup hmem
    obtain ⟨k0, c0⟩ := e
    rw [List.map_cons, List.nodup_cons] at hnodup
    rcases List.mem_cons.mp hmem with heq | hmem'
    · injection heq with hk0 hc0
      subst hk0
      subst hc0
      rw [EnvGuardSwagger.swaggerEntries_cons, if_pos hsens]
      constructor
      · intro hin
        exact hnodup.1 (EnvGuardSwagger.mem_schema_of_mem_properties rest key hin)
      · intro hin
        exact hnodup.1 (EnvGuardSwagger.mem_schema_of_mem_required rest key hin)
    · have hkey_mem : key ∈ rest.map Prod.fst :=
        List.mem_map.mpr ⟨(key, config), hmem', rfl⟩
      have hkne : key ≠ k0 := fun h => hnodup.1 (h ▸ hkey_mem)
      have hrest := ih hnodup.2 hmem'
      rw [EnvGuardSwagger.swaggerEntries_cons]
      by_cases hs0 : c0.sensitive = true
      · rw [if_pos hs0]
        exact hrest
      · rw [if_neg hs0]
        constructor
        · rw [List.map_cons, List.mem_cons]
          push_neg
          exact ⟨hkne, hrest.1⟩
        · by_cases hr0 : c0.required = true
          · rw [if_pos hr0, List.mem_cons]
            push_neg
            exact ⟨hkne, hrest.2⟩
          · rw [if_neg hr0]
            exact hrest.2

/-- A sensitive, required demo field. -/
def sensitiveCfg : EnvFieldConfig :=
  ⟨EnvType.string, true, true, false, none, none, none, none, none, none, none⟩

/-- A plain demo field. -/
def plainCfg : EnvFieldConfig :=
  ⟨EnvType.string, false, false, false, none, none, none, none, none, none, none⟩

/-- Witness for C7 on a two-field schema whose first field is sensitive and
required. -/
theorem C7_witness :
    ['S'] ∉ (EnvGuardSwagger.generateSwaggerDoc
        [(['S'], sensitiveCfg), (['A'], plainCfg)]).properties.map Prod.fst ∧
    ['S'] ∉ (EnvGuardSwagger.generateSwaggerDoc
        [(['S'], sensitiveCfg), (['A'], plainCfg)]).required :=
  C7_swagger_excludes_sensitive [(['S'], sensitiveCfg), (['A'], plainCfg)] ['S'] sensitiveCfg
    (by decide) (by decide) (by decide)

/-- C8: parsing is a pure, deterministic function of the file content: with
the ambient process environment made an explicit argument, the result is the
same for any two environments and coincides with the content-only parse. -/
theorem C8_parse_pure (env1 env2 : List (List Char × List Char)) (content : List Char) :
    EnvParser.parseWithEnv env1 content = EnvParser.parseWithEnv env2 content ∧
    EnvParser.parseWithEnv env1 content = EnvParser.parse content :=
  ⟨rfl, rfl⟩

/-- C9: for a `number` field the empty string is not rejected as unparseable:
`Number('')` coerces to `0`, so validation succeeds with `0` whenever the
optional bounds admit it. -/
theorem C9_empty_string_number (config : EnvFieldConfig)
    (hmin : ∀ bound, config.min = some bound → bound ≤ 0)
    (hmax : ∀ bound, config.max = some bound → 0 ≤ bound) :
    jsNumber [] = some 0 ∧
    TypeValidator.validateNumber [] config = Except.ok 0 := by
  refine ⟨rfl, ?_⟩
  have h0 : jsNumber [] = some 0 := rfl
  unfold TypeValidator.validateNumber
  rw [h0]
  cases hm : config.min with
  | some bound =>
    dsimp only
    rw [if_neg (by have := hmin bound hm; omega)]
    cases hM : config.max with
    | some bound2 =>
      unfold TypeValidator.checkMax
      dsimp only
      rw [if_neg (by have := hmax bound2 hM; omega)]
    | none => rfl
  | none =>
    dsimp only
    cases hM : config.max with
    | some bound2 =>
      unfold TypeValidator.checkMax
      dsimp only
      rw [if_neg (by have := hmax bound2 hM; omega)]
    | none => rfl

/-- Witness for C9 at an unbounded number field. -/
theorem C9_witness :
    jsNumber [] = some 0 ∧
    TypeValidator.validateNumber []
        ⟨EnvType.number, false, false, false, none, none, none, none, none, none, none⟩ =
      Except.ok 0 :=
  C9_empty_string_number
    ⟨EnvType.number, false, false, false, none, none, none, none, none, none, none⟩
    (fun _ h => Option.noConfusion h) (fun _ h => Option.noConfusion h)

/-- C10: when the same key occurs on two `key=value` lines of the content,
the parsed object binds the key to the value of the later line. -/
theorem C10_duplicate_keys_last_wins (k v1 v2 : List Char)
    (hk : '=' ∉ k)
    (hn1 : '\n' ∉ k ++ '=' :: v1) (hn2 : '\n' ∉ k ++ '=' :: v2)
    (h1 : jsTrim (k ++ '=' :: v1) = k ++ '=' :: v1)
    (h2 : jsTrim (k ++ '=' :: v2) = k ++ '=' :: v2)
    (hh1 : (k ++ '=' :: v1).head? ≠ some '#')
    (hh2 : (k ++ '=' :: v2).head? ≠ some '#')
    (hb1 : (stripQuotes (jsTrim v1)).getLast? ≠ some '\\')
    (hb2 : (stripQuotes (jsTrim v2)).getLast? ≠ some '\\') :
    objGet (EnvParser.parse (joinChar '\n' [k ++ '=' :: v1, k ++ '=' :: v2])) (jsTrim k) =
      some (stripQuotes (jsTrim v2)) := by
  unfold EnvParser.parse
  rw [splitOnChar_joinChar '\n' [k ++ '=' :: v1, k ++ '=' :: v2] (by simp) (by
    intro g hg
    rcases List.mem_cons.mp hg with h | hg
    · exact h ▸ hn1
    rcases List.mem_cons.mp hg with h | hg
    · exact h ▸ hn2
    · exact absurd hg (List.not_mem_nil g))]
  rw [parseGo_assign (k ++ '=' :: v1) [k ++ '=' :: v2] k v1 h1 hk (by rw [h1]; exact hh1)]
  rw [if_neg (fun hC => hb1 hC.1)]
  rw [parseGo_assign (k ++ '=' :: v2) [] k v2 h2 hk (by rw [h2]; exact hh2)]
  rw [if_neg (fun hC => hb2 hC.1)]
  unfold objGet
  simp only [List.foldl_cons, if_pos rfl]
  rfl

/-- Witness for C10: the file `K=1` followed by `K=2` binds `K` to `2`. -/
theorem C10_witness :
    objGet (EnvParser.parse (joinChar '\n' [['K', '=', '1'], ['K', '=', '2']])) (jsTrim ['K']) =
      some (stripQuotes (jsTrim ['2'])) :=
  C10_duplicate_keys_last_wins ['K'] ['1'] ['2'] (by decide) (by decide) (by decide) (by decide)
    (by decide) (by decide) (by decide) (by decide) (by decide)
